import Mathlib

/-!
Shallow embedding of the wiki server (Go sources under src/): the name
validator and route matcher (`validPath`), the file-backed page store
(`Page.save`, `loadPage`, `getAllPages`), the wiki-link transform
(`processLinks`), and the HTTP handlers (`viewHandler`, `editHandler`,
`saveHandler`, `makeHandler`).  The filesystem is modelled as the flat
data directory: a list of named entries plus fault flags for injected
I/O failures (write failure, unreadable directory).
-/

namespace Wiki

/-! ## Name validator: the character class [a-zA-Z0-9] of the route regex -/

/-- One character of the page-name grammar `[a-zA-Z0-9]` used by the
route regex and by the link regex in `processLinks`. -/
def isNameChar (c : Char) : Bool :=
  ('a' ≤ c && c ≤ 'z') || ('A' ≤ c && c ≤ 'Z') || ('0' ≤ c && c ≤ '9')

/-- `[a-zA-Z0-9]+`: a non-empty run of name characters. -/
def validNameChars (l : List Char) : Bool :=
  !l.isEmpty && l.all isNameChar

/-- A string is a valid page name when it matches `[a-zA-Z0-9]+` whole. -/
def validName (s : String) : Bool :=
  validNameChars s.data

/-! ## Router: the anchored regex `^/(edit|save|view)/([a-zA-Z0-9]+)$` -/

/-- The three operation keywords of the route pattern. -/
inductive RouteOp where
  | edit
  | save
  | view
  deriving DecidableEq

/-- Character-level matcher for `^/(edit|save|view)/([a-zA-Z0-9]+)$`:
the path must be exactly a slash, one of the three keywords, a slash,
and a non-empty alphanumeric name reaching to the end of the string
(a name character can never be a slash, so no extra segments fit). -/
def validPathAux : List Char → Option (RouteOp × List Char)
  | '/' :: 'e' :: 'd' :: 'i' :: 't' :: '/' :: rest =>
      if validNameChars rest then some (RouteOp.edit, rest) else none
  | '/' :: 's' :: 'a' :: 'v' :: 'e' :: '/' :: rest =>
      if validNameChars rest then some (RouteOp.save, rest) else none
  | '/' :: 'v' :: 'i' :: 'e' :: 'w' :: '/' :: rest =>
      if validNameChars rest then some (RouteOp.view, rest) else none
  | _ => none

/-- `validPath.FindStringSubmatch` on a request path: the matched
operation keyword (group 1) and page name (group 2), or `none`. -/
def validPath (path : String) : Option (RouteOp × String) :=
  (validPathAux path.data).map (fun m => (m.1, String.mk m.2))

/-! ## Filesystem model: the flat `data` directory plus fault flags -/

/-- A directory entry: a regular file with byte content (bytes are kept
as the characters of a string, faithful for the ASCII cases the spec
exercises), or a subdirectory. -/
inductive Entry where
  | file (content : String)
  | dir
  deriving DecidableEq

/-- Whether a directory entry is a directory (`file.IsDir()`). -/
def Entry.isDir : Entry → Bool
  | Entry.dir => true
  | Entry.file _ => false

/-- The state of the `data` directory: its entries in enumeration
order, plus injected-fault flags for a failing write and for the
directory itself being unreadable. -/
structure Fs where
  entries : List (String × Entry)
  failWrite : Bool
  dirUnreadable : Bool
  deriving DecidableEq

/-- Look an entry up by filename. -/
def lookupEntry : List (String × Entry) → String → Option Entry
  | [], _ => none
  | (k, v) :: rest, nm => if k = nm then some v else lookupEntry rest nm

/-- Replace the entry named `nm` (or append it at the end). -/
def setEntry : List (String × Entry) → String → Entry → List (String × Entry)
  | [], nm, e => [(nm, e)]
  | (k, v) :: rest, nm, e =>
      if k = nm then (nm, e) :: rest else (k, v) :: setEntry rest nm e

/-- `os.WriteFile`: fails when the injected write fault is set or the
target name is a directory; otherwise replaces the file's content. -/
def writeFile (fs : Fs) (nm : String) (c : String) : Except String Fs :=
  if fs.failWrite then Except.error "write error"
  else
    match lookupEntry fs.entries nm with
    | some Entry.dir => Except.error "is a directory"
    | _ => Except.ok { fs with entries := setEntry fs.entries nm (Entry.file c) }

/-- `os.ReadFile`: the content of the named regular file; reading a
missing name or a directory is an error, collapsed to `none` (every
caller treats any read error the same way). -/
def readFile (fs : Fs) (nm : String) : Option String :=
  match lookupEntry fs.entries nm with
  | some (Entry.file c) => some c
  | _ => none

/-! ## Page store -/

/-- A wiki page: a title and its body. -/
structure Page where
  Title : String
  Body : String
  deriving DecidableEq

/-- `Page.save`: write the body to the file `Title + ".txt"` in the
data directory. -/
def Page.save (p : Page) (fs : Fs) : Except String Fs :=
  writeFile fs (p.Title ++ ".txt") p.Body

/-- `loadPage`: read `title + ".txt"` and wrap it in a `Page`; `none`
when the read fails. -/
def loadPage (title : String) (fs : Fs) : Option Page :=
  (readFile fs (title ++ ".txt")).map (fun body => { Title := title, Body := body })

/-- `strings.HasSuffix(name, ".txt")`. -/
def hasTxtSuffix (s : String) : Bool :=
  List.isSuffixOf ".txt".data s.data

/-- `strings.TrimSuffix(name, ".txt")`: drop the last four characters
when the suffix is present, otherwise return the string unchanged. -/
def trimTxtSuffix (s : String) : String :=
  if hasTxtSuffix s then String.mk (s.data.take (s.data.length - 4)) else s

/-- `getAllPages`: enumerate the data directory; error when the
directory itself is unreadable, otherwise the names of the non-directory
entries ending in `.txt`, with the suffix trimmed, in enumeration
order. -/
def getAllPages (fs : Fs) : Except String (List String) :=
  if fs.dirUnreadable then Except.error "read dir error"
  else
    Except.ok
      ((fs.entries.filter (fun e => !e.2.isDir && hasTxtSuffix e.1)).map
        (fun e => trimTxtSuffix e.1))

/-! ## Link transform: the regex replacement in `processLinks` -/

/-- The replacement the link regex produces for a captured `name`:
an anchor to `/view/name` whose visible label is the name. -/
def linkAnchor (name : List Char) : List Char :=
  "<a href=\"/view/".data ++ name ++ "\">".data ++ name ++ "</a>".data

/-- Try to read a link marker starting right after an opening bracket:
the maximal run of name characters followed by a closing bracket.
One run of `[a-zA-Z0-9]+` before the required closing bracket is the
only way the regex can match at this position; when the run is empty
or the next character is not the closing bracket, nothing matches
here. -/
def markerSplit (rest : List Char) : Option (List Char × List Char) :=
  match List.dropWhile isNameChar rest with
  | [] => none
  | d :: rest3 =>
      if d = ']' && !(List.takeWhile isNameChar rest).isEmpty then
        some (List.takeWhile isNameChar rest, rest3)
      else none

/-- Left-to-right scan of `ReplaceAllStringFunc` with the pattern
matching a bracketed alphanumeric name: at each position, replace the
leftmost match and continue after it; otherwise emit the character and
continue at the next position.  The fuel argument (instantiated with
the length of the list) only makes the recursion structural; the scan
always terminates before exhausting it. -/
def processLinksGo : Nat → List Char → List Char
  | 0, l => l
  | _ + 1, [] => []
  | fuel + 1, c :: rest =>
      if c = '[' then
        match markerSplit rest with
        | some (name, rest3) => linkAnchor name ++ processLinksGo fuel rest3
        | none => '[' :: processLinksGo fuel rest
      else c :: processLinksGo fuel rest

/-- The link replacement on a character list. -/
def processLinksAux (l : List Char) : List Char :=
  processLinksGo l.length l

/-- `processLinks`: replace every `[name]` marker in the body with an
anchor to that name's view page. -/
def processLinks (s : String) : String :=
  String.mk (processLinksAux s.data)

/-! ## Responses and handlers -/

/-- What a handler writes to the response: a rendered template with the
data actually shown, an index listing, a redirect, a 404, or a 500. -/
inductive Response where
  | rendered (tmpl : String) (title : String) (shownBody : String)
  | renderedIndex (pages : List String)
  | redirect (loc : String)
  | notFound
  | serverError (msg : String)
  deriving DecidableEq

/-- Modelled from the spec: the template files view.html and edit.html
are not under src (only index.html is), so what each template shows is
taken from the spec's presentation contract — the view template invokes
the Link Transform (`processLinks`) on the body before display, and the
edit template presents the raw body.  `renderTemplate` itself is the Go
function of that name, with template execution assumed to succeed (the
template engine is an external collaborator). -/
def renderTemplate (tmpl : String) (p : Page) : Response :=
  if tmpl = "view" then Response.rendered "view" p.Title (processLinks p.Body)
  else Response.rendered tmpl p.Title p.Body

/-- `r.FormValue(key)`: the form field's value, or the empty string
when the field is absent. -/
def formValue (form : List (String × String)) (key : String) : String :=
  match form.lookup key with
  | some v => v
  | none => ""

/-- `viewHandler`: load the page; redirect to its edit page when the
load fails, otherwise render the view template. -/
def viewHandler (title : String) (fs : Fs) : Response × Fs :=
  match loadPage title fs with
  | none => (Response.redirect ("/edit/" ++ title), fs)
  | some p => (renderTemplate "view" p, fs)

/-- `editHandler`: load the page; on failure fall back to a fresh page
with the given title and empty body, then render the edit template. -/
def editHandler (title : String) (fs : Fs) : Response × Fs :=
  match loadPage title fs with
  | none => (renderTemplate "edit" { Title := title, Body := "" }, fs)
  | some p => (renderTemplate "edit" p, fs)

/-- `saveHandler`: build a page from the form's body field and save it;
respond 500 on a store failure, otherwise redirect to the view page. -/
def saveHandler (form : List (String × String)) (title : String) (fs : Fs) :
    Response × Fs :=
  match Page.save { Title := title, Body := formValue form "body" } fs with
  | Except.error e => (Response.serverError e, fs)
  | Except.ok fs2 => (Response.redirect ("/view/" ++ title), fs2)

/-- `indexHandler`: enumerate the pages; 500 when the enumeration
fails, otherwise render the index listing. -/
def indexHandler (fs : Fs) : Response × Fs :=
  match getAllPages fs with
  | Except.error e => (Response.serverError e, fs)
  | Except.ok pages => (Response.renderedIndex pages, fs)

/-- `makeHandler`: match the request path against `validPath`; respond
404 without calling the wrapped handler when it does not match,
otherwise call the handler with the extracted name. -/
def makeHandler (fn : String → Fs → Response × Fs) (path : String) (fs : Fs) :
    Response × Fs :=
  match validPath path with
  | none => (Response.notFound, fs)
  | some m => fn m.2 fs

/-! ## Concrete stores used as witnesses -/

/-- An empty data directory with no injected faults. -/
def fsEmpty : Fs := { entries := [], failWrite := false, dirUnreadable := false }

/-- A store holding only the page Home with body "hi". -/
def fsHomeHi : Fs := { entries := [("Home.txt", Entry.file "hi")], failWrite := false, dirUnreadable := false }

/-- A store holding only the page Alpha with body "hello". -/
def fsAlphaHello : Fs := { entries := [("Alpha.txt", Entry.file "hello")], failWrite := false, dirUnreadable := false }

/-- A store holding only the page Alpha with empty body. -/
def fsAlphaEmpty : Fs := { entries := [("Alpha.txt", Entry.file "")], failWrite := false, dirUnreadable := false }

/-- A store holding one page record and one subdirectory. -/
def fsSample : Fs := { entries := [("A.txt", Entry.file "x"), ("sub", Entry.dir)], failWrite := false, dirUnreadable := false }

/-! ## Lemmas about the link transform scan -/

theorem length_dropWhile_le (p : Char → Bool) (l : List Char) :
    (l.dropWhile p).length ≤ l.length := by
  induction l with
  | nil => simp
  | cons a l ih =>
      by_cases h : p a = true
      · rw [List.dropWhile_cons, if_pos h]
        exact Nat.le_succ_of_le ih
      · rw [List.dropWhile_cons, if_neg h]

theorem takeWhile_name_append {name : List Char} (r : List Char)
    (h : ∀ c ∈ name, isNameChar c = true) :
    List.takeWhile isNameChar (name ++ ']' :: r) = name := by
  induction name with
  | nil =>
      have hb : isNameChar ']' = false := by decide
      rw [List.nil_append, List.takeWhile_cons, hb]
      simp
  | cons a nm ih =>
      have ha : isNameChar a = true := h a (List.mem_cons_self a nm)
      rw [List.cons_append, List.takeWhile_cons, ha]
      simp only [if_true]
      rw [ih (fun c hc => h c (List.mem_cons_of_mem a hc))]

theorem dropWhile_name_append {name : List Char} (r : List Char)
    (h : ∀ c ∈ name, isNameChar c = true) :
    List.dropWhile isNameChar (name ++ ']' :: r) = ']' :: r := by
  induction name with
  | nil =>
      have hb : isNameChar ']' = false := by decide
      rw [List.nil_append, List.dropWhile_cons, hb]
      simp
  | cons a nm ih =>
      have ha : isNameChar a = true := h a (List.mem_cons_self a nm)
      rw [List.cons_append, List.dropWhile_cons, ha]
      simp only [if_true]
      exact ih (fun c hc => h c (List.mem_cons_of_mem a hc))

theorem markerSplit_valid {name : List Char} (r : List Char) (hne : name ≠ [])
    (h : ∀ c ∈ name, isNameChar c = true) :
    markerSplit (name ++ ']' :: r) = some (name, r) := by
  unfold markerSplit
  rw [dropWhile_name_append r h, takeWhile_name_append r h]
  have : name.isEmpty = false := by
    cases name with
    | nil => exact absurd rfl hne
    | cons a nm => rfl
  simp [this]

theorem markerSplit_length {rest name rest3 : List Char}
    (h : markerSplit rest = some (name, rest3)) : rest3.length < rest.length := by
  unfold markerSplit at h
  cases hdw : List.dropWhile isNameChar rest with
  | nil => rw [hdw] at h; exact absurd h (by simp)
  | cons d r3 =>
      rw [hdw] at h
      dsimp only at h
      split at h
      · have hr3 : r3 = rest3 := congrArg Prod.snd (Option.some.inj h)
        subst hr3
        have hlen : (List.dropWhile isNameChar rest).length ≤ rest.length :=
          length_dropWhile_le isNameChar rest
        rw [hdw] at hlen
        simp only [List.length_cons] at hlen
        omega
      · exact absurd h (by simp)

theorem processLinksGo_nil (n : Nat) : processLinksGo n [] = [] := by
  cases n with
  | zero => rfl
  | succ m => rfl

theorem processLinksGo_congr :
    ∀ (f1 : Nat) (l : List Char) (f2 : Nat), l.length ≤ f1 → l.length ≤ f2 →
      processLinksGo f1 l = processLinksGo f2 l := by
  intro f1
  induction f1 with
  | zero =>
      intro l f2 h1 h2
      have hl : l = [] := List.eq_nil_of_length_eq_zero (Nat.le_zero.mp h1)
      subst hl
      rw [processLinksGo_nil, processLinksGo_nil]
  | succ f ih =>
      intro l f2 h1 h2
      cases l with
      | nil => rw [processLinksGo_nil, processLinksGo_nil]
      | cons c rest =>
          cases f2 with
          | zero => simp at h2
          | succ f2' =>
              simp only [List.length_cons, Nat.succ_le_succ_iff] at h1 h2
              simp only [processLinksGo]
              by_cases hc : c = '['
              · rw [if_pos hc, if_pos hc]
                cases hms : markerSplit rest with
                | none => rw [ih rest f2' h1 h2]
                | some pr =>
                    obtain ⟨nm, rest3⟩ := pr
                    have hlt : rest3.length < rest.length := markerSplit_length hms
                    dsimp only
                    rw [ih rest3 f2' (by omega) (by omega)]
              · rw [if_neg hc, if_neg hc, ih rest f2' h1 h2]

theorem processLinksAux_nil : processLinksAux [] = [] := rfl

theorem processLinksAux_cons_ne {c : Char} (rest : List Char) (hc : c ≠ '[') :
    processLinksAux (c :: rest) = c :: processLinksAux rest := by
  unfold processLinksAux
  simp only [List.length_cons]
  simp only [processLinksGo]
  rw [if_neg hc]

theorem processLinksAux_marker (name mid : List Char) (hne : name ≠ [])
    (hall : ∀ c ∈ name, isNameChar c = true) :
    processLinksAux ('[' :: (name ++ ']' :: mid)) =
      linkAnchor name ++ processLinksAux mid := by
  unfold processLinksAux
  simp only [List.length_cons]
  simp only [processLinksGo]
  rw [if_pos True.intro, markerSplit_valid mid hne hall]
  have hfuel : mid.length ≤ (name ++ ']' :: mid).length := by
    simp only [List.length_append, List.length_cons]
    omega
  dsimp only
  rw [processLinksGo_congr _ mid _ hfuel (Nat.le_refl _)]

theorem processLinksAux_append (pre l : List Char) (hpre : '[' ∉ pre) :
    processLinksAux (pre ++ l) = pre ++ processLinksAux l := by
  induction pre with
  | nil => simp
  | cons c pre ih =>
      have hc : c ≠ '[' := fun h => hpre (h ▸ List.mem_cons_self c pre)
      rw [List.cons_append, processLinksAux_cons_ne _ hc,
        ih (fun h => hpre (List.mem_cons_of_mem c h)), List.cons_append]

/-! ## Lemmas about strings and the store model -/

theorem string_eq_of_data_eq {a b : String} (h : a.data = b.data) : a = b :=
  congrArg String.mk h

theorem string_mk_data (s : String) : String.mk s.data = s := rfl

theorem isNameChar_eq_isAlphanum (c : Char) : isNameChar c = c.isAlphanum := by
  simp [isNameChar, Char.isAlphanum, Char.isAlpha, Char.isDigit, Char.isUpper,
    Char.isLower, Char.le_def, Bool.or_comm, Bool.or_assoc, Bool.or_left_comm]

theorem lookupEntry_setEntry_self (l : List (String × Entry)) (nm : String) (e : Entry) :
    lookupEntry (setEntry l nm e) nm = some e := by
  induction l with
  | nil => simp [setEntry, lookupEntry]
  | cons kv rest ih =>
      obtain ⟨k, v⟩ := kv
      by_cases hk : k = nm
      · subst hk
        simp [setEntry, lookupEntry]
      · simp only [setEntry, lookupEntry, if_neg hk]
        exact ih

theorem hasTxtSuffix_append (n : String) : hasTxtSuffix (n ++ ".txt") = true := by
  unfold hasTxtSuffix
  rw [String.data_append]
  exact (List.isSuffixOf_iff_suffix).mpr ⟨n.data, rfl⟩

theorem trimTxtSuffix_append (n : String) : trimTxtSuffix (n ++ ".txt") = n := by
  unfold trimTxtSuffix
  rw [if_pos (hasTxtSuffix_append n)]
  rw [String.data_append, List.length_append]
  have h4 : (".txt" : String).data.length = 4 := rfl
  rw [h4]
  have he : n.data.length + 4 - 4 = n.data.length := by omega
  rw [he, List.take_left]

theorem trimTxtSuffix_concat {f : String} (h : hasTxtSuffix f = true) :
    trimTxtSuffix f ++ ".txt" = f := by
  have hsuf : (".txt" : String).data <:+ f.data := by
    unfold hasTxtSuffix at h
    exact (List.isSuffixOf_iff_suffix).mp h
  obtain ⟨t, ht⟩ := hsuf
  apply string_eq_of_data_eq
  rw [String.data_append]
  unfold trimTxtSuffix
  rw [if_pos h]
  show f.data.take (f.data.length - 4) ++ (".txt" : String).data = f.data
  rw [← ht, List.length_append]
  have h4 : (".txt" : String).data.length = 4 := rfl
  rw [h4]
  have he : t.length + 4 - 4 = t.length := by omega
  rw [he, List.take_left]

/-- Saving then loading: a successful `Page.save` makes `loadPage`
return exactly the saved page. -/
theorem loadPage_after_save {n c : String} {fs fs2 : Fs}
    (hs : Page.save { Title := n, Body := c } fs = Except.ok fs2) :
    loadPage n fs2 = some { Title := n, Body := c } ∧
    lookupEntry fs2.entries (n ++ ".txt") = some (Entry.file c) := by
  unfold Page.save writeFile at hs
  split at hs
  · exact absurd hs (by simp)
  · split at hs
    · exact absurd hs (by simp)
    · have hfs2 := Except.ok.inj hs
      subst hfs2
      have hlook : lookupEntry (setEntry fs.entries (n ++ ".txt") (Entry.file c))
          (n ++ ".txt") = some (Entry.file c) :=
        lookupEntry_setEntry_self fs.entries (n ++ ".txt") (Entry.file c)
      constructor
      · unfold loadPage readFile
        rw [hlook]
        rfl
      · exact hlook

/-! ## The claims -/

/-- Claim C4: the name validator accepts a string exactly when it is
non-empty and every character is an ASCII letter or digit. -/
theorem claim_C4 (s : String) :
    validName s = true ↔ s ≠ "" ∧ ∀ c ∈ s.data, c.isAlphanum = true := by
  unfold validName validNameChars
  rw [Bool.and_eq_true, List.all_eq_true]
  have hdata : (!s.data.isEmpty) = true ↔ s ≠ "" := by
    cases s with
    | mk l =>
        cases l with
        | nil => simp
        | cons a t => simp [String.ext_iff]
  constructor
  · rintro ⟨h1, h2⟩
    refine ⟨hdata.mp h1, fun c hc => ?_⟩
    rw [← isNameChar_eq_isAlphanum c]
    exact h2 c hc
  · rintro ⟨h1, h2⟩
    refine ⟨hdata.mpr h1, fun c hc => ?_⟩
    rw [isNameChar_eq_isAlphanum c]
    exact h2 c hc

theorem claim_C4_witness :
    ("Home" : String) ≠ "" ∧ ∀ c ∈ ("Home" : String).data, c.isAlphanum = true :=
  (claim_C4 "Home").mp (by decide)

/-- Claim C9: for every valid name, the redirect targets emitted by the
view handler (`/edit/name`) and the save handler (`/view/name`) match
the route pattern, extracting the same operation and name. -/
theorem claim_C9 (n : String) (h : validName n = true) :
    validPath ("/edit/" ++ n) = some (RouteOp.edit, n) ∧
    validPath ("/view/" ++ n) = some (RouteOp.view, n) := by
  unfold validPath
  rw [String.data_append, String.data_append]
  have he : ("/edit/" : String).data = ['/', 'e', 'd', 'i', 't', '/'] := rfl
  have hv : ("/view/" : String).data = ['/', 'v', 'i', 'e', 'w', '/'] := rfl
  rw [he, hv]
  unfold validName at h
  simp only [List.cons_append, List.nil_append]
  simp only [validPathAux, h, if_true]
  exact ⟨rfl, rfl⟩

theorem claim_C9_witness :
    validPath ("/edit/" ++ "Home") = some (RouteOp.edit, "Home") ∧
    validPath ("/view/" ++ "Home") = some (RouteOp.view, "Home") :=
  claim_C9 "Home" (by decide)

/-- Claim C3: a request path that the route pattern rejects — wrong
keyword, missing name, invalid name, extra segments — is answered
"not found" by the wrapper, with no handler invoked and the store
untouched. -/
theorem claim_C3 :
    (∀ (fn : String → Fs → Response × Fs) (path : String) (fs : Fs),
      validPath path = none → makeHandler fn path fs = (Response.notFound, fs)) ∧
    validPath "/view/../etc" = none ∧
    validPath "/delete/Home" = none ∧
    validPath "/view/" = none ∧
    validPath "/view/Home/extra" = none := by
  refine ⟨?_, by decide, by decide, by decide, by decide⟩
  intro fn path fs h
  unfold makeHandler
  rw [h]

theorem claim_C3_witness :
    makeHandler viewHandler "/delete/Home" fsEmpty = (Response.notFound, fsEmpty) :=
  claim_C3.1 viewHandler "/delete/Home" fsEmpty (by decide)

/-- Claim C1: for a valid name and any content, a successful save
followed by a load returns exactly the saved content, and the record
sits under the key `name + ".txt"`. -/
theorem claim_C1 (n c : String) (fs fs2 : Fs) ( _hn : validName n = true)
    (hs : Page.save { Title := n, Body := c } fs = Except.ok fs2) :
    loadPage n fs2 = some { Title := n, Body := c } ∧
    lookupEntry fs2.entries (n ++ ".txt") = some (Entry.file c) :=
  loadPage_after_save hs

theorem claim_C1_witness :
    Page.save { Title := "Home", Body := "hi" } fsEmpty = Except.ok fsHomeHi ∧
    loadPage "Home" fsHomeHi = some { Title := "Home", Body := "hi" } :=
  ⟨by rfl, (claim_C1 "Home" "hi" fsEmpty fsHomeHi (by decide) (by rfl)).1⟩

/-- Claim C2: the link transform replaces a bracketed valid name by the
anchor to that name's view page while passing the surrounding text
through verbatim (stated for any marker-free text before the marker and
any continuation after it), replaces both markers of the spec's
two-marker example, and leaves the malformed markers `"[not valid]"`
and `"[]"` unchanged. -/
theorem claim_C2 :
    (∀ pre name mid : List Char, '[' ∉ pre → name ≠ [] →
        (∀ c ∈ name, isNameChar c = true) →
        processLinksAux (pre ++ '[' :: (name ++ ']' :: mid)) =
          pre ++ (linkAnchor name ++ processLinksAux mid)) ∧
    processLinks "See [Home] and [Foo2] here" =
      "See <a href=\"/view/Home\">Home</a> and <a href=\"/view/Foo2\">Foo2</a> here" ∧
    processLinks "[not valid]" = "[not valid]" ∧
    processLinks "[]" = "[]" := by
  refine ⟨?_, by decide, by decide, by decide⟩
  intro pre name mid hpre hne hall
  rw [processLinksAux_append pre _ hpre, processLinksAux_marker name mid hne hall]

theorem claim_C2_witness :
    processLinksAux ("See ".data ++ '[' :: ("Home".data ++ ']' :: " ok".data)) =
      "See ".data ++ (linkAnchor "Home".data ++ processLinksAux " ok".data) :=
  claim_C2.1 "See ".data "Home".data " ok".data (by decide) (by decide) (by decide)

/-- Claim C5: viewing a valid name with no stored record redirects to
that name's edit page and leaves the store unchanged; on success it
renders the view template with the page's name and the link-transformed
body. -/
theorem claim_C5 (n : String) (fs : Fs) ( _hn : validName n = true) :
    (loadPage n fs = none →
      viewHandler n fs = (Response.redirect ("/edit/" ++ n), fs)) ∧
    (∀ p, loadPage n fs = some p →
      viewHandler n fs = (Response.rendered "view" n (processLinks p.Body), fs)) := by
  constructor
  · intro h
    unfold viewHandler
    rw [h]
  · intro p h
    have hTitle : p.Title = n := by
      unfold loadPage at h
      cases hre : readFile fs (n ++ ".txt") with
      | none => rw [hre] at h; simp at h
      | some b =>
          rw [hre] at h
          simp only [Option.map] at h
          have := Option.some.inj h
          rw [← this]
    unfold viewHandler renderTemplate
    rw [h]
    simp [hTitle]

theorem claim_C5_witness :
    viewHandler "NoSuchPage" fsEmpty = (Response.redirect ("/edit/" ++ "NoSuchPage"), fsEmpty) :=
  (claim_C5 "NoSuchPage" fsEmpty (by decide)).1 (by rfl)

/-- Claim C6: editing a valid name with no stored record renders the
edit template for a page with that name and empty body, with no error;
when a record exists, the edit template receives the raw stored body
untransformed. -/
theorem claim_C6 (n : String) (fs : Fs) ( _hn : validName n = true) :
    (loadPage n fs = none →
      editHandler n fs = (Response.rendered "edit" n "", fs)) ∧
    (∀ p, loadPage n fs = some p →
      editHandler n fs = (Response.rendered "edit" n p.Body, fs)) := by
  constructor
  · intro h
    unfold editHandler renderTemplate
    rw [h]
    rfl
  · intro p h
    have hTitle : p.Title = n := by
      unfold loadPage at h
      cases hre : readFile fs (n ++ ".txt") with
      | none => rw [hre] at h; simp at h
      | some b =>
          rw [hre] at h
          simp only [Option.map] at h
          have := Option.some.inj h
          rw [← this]
    unfold editHandler renderTemplate
    rw [h]
    simp [hTitle]

theorem claim_C6_witness :
    editHandler "NoSuchPage" fsEmpty = (Response.rendered "edit" "NoSuchPage" "", fsEmpty) :=
  (claim_C6 "NoSuchPage" fsEmpty (by decide)).1 (by rfl)

/-- Claim C7: saving persists the form's body field under the name;
on a store failure it responds with a server error carrying the store's
message and leaves the store as it was, with no redirect; on success
it redirects to the name's view page, after which viewing renders the
saved content — in particular saving "hello" under "Alpha" and then
viewing "Alpha" renders "hello". -/
theorem claim_C7 (n : String) (form : List (String × String)) (fs : Fs)
    ( _hn : validName n = true) :
    (∀ e, Page.save { Title := n, Body := formValue form "body" } fs = Except.error e →
        saveHandler form n fs = (Response.serverError e, fs)) ∧
    (∀ fs2, Page.save { Title := n, Body := formValue form "body" } fs = Except.ok fs2 →
        saveHandler form n fs = (Response.redirect ("/view/" ++ n), fs2) ∧
        viewHandler n fs2 =
          (Response.rendered "view" n (processLinks (formValue form "body")), fs2)) ∧
    (∀ fs0 fs1 : Fs, Page.save { Title := "Alpha", Body := "hello" } fs0 = Except.ok fs1 →
        saveHandler [("body", "hello")] "Alpha" fs0 =
          (Response.redirect "/view/Alpha", fs1) ∧
        viewHandler "Alpha" fs1 = (Response.rendered "view" "Alpha" "hello", fs1)) := by
  refine ⟨?_, ?_, ?_⟩
  · intro e hs
    unfold saveHandler
    rw [hs]
  · intro fs2 hs
    constructor
    · unfold saveHandler
      rw [hs]
    · have hload := (loadPage_after_save hs).1
      unfold viewHandler renderTemplate
      rw [hload]
      simp
  · intro fs0 fs1 hs
    have hfv : formValue [("body", "hello")] "body" = "hello" := by decide
    constructor
    · unfold saveHandler
      rw [hfv, hs]
      rfl
    · have hload := (loadPage_after_save hs).1
      unfold viewHandler renderTemplate
      rw [hload]
      have hpl : processLinks "hello" = "hello" := by decide
      simp [hpl]

theorem claim_C7_witness :
    saveHandler [("body", "hello")] "Alpha" fsEmpty =
      (Response.redirect "/view/Alpha", fsAlphaHello) ∧
    viewHandler "Alpha" fsAlphaHello =
      (Response.rendered "view" "Alpha" "hello", fsAlphaHello) :=
  (claim_C7 "Alpha" [("body", "hello")] fsEmpty (by decide)).2.2 fsEmpty fsAlphaHello (by rfl)

/-- Claim C10: a save request whose form has no "body" field is not an
error: the handler persists the empty content under the name and
redirects to the name's view page. -/
theorem claim_C10 (n : String) (form : List (String × String)) (fs fs2 : Fs)
    ( _hn : validName n = true) (hform : form.lookup "body" = none)
    (hs : Page.save { Title := n, Body := "" } fs = Except.ok fs2) :
    saveHandler form n fs = (Response.redirect ("/view/" ++ n), fs2) ∧
    loadPage n fs2 = some { Title := n, Body := "" } := by
  have hfv : formValue form "body" = "" := by
    unfold formValue
    rw [hform]
  constructor
  · unfold saveHandler
    rw [hfv, hs]
  · exact (loadPage_after_save hs).1

theorem claim_C10_witness :
    saveHandler [("other", "x")] "Alpha" fsEmpty =
      (Response.redirect ("/view/" ++ "Alpha"), fsAlphaEmpty) ∧
    loadPage "Alpha" fsAlphaEmpty = some { Title := "Alpha", Body := "" } :=
  claim_C10 "Alpha" [("other", "x")] fsEmpty fsAlphaEmpty (by decide) (by rfl) (by rfl)

/-- Claim C8: enumerating the pages surfaces an error exactly when the
storage directory itself is unreadable; otherwise it returns, with no
error, precisely the names whose `.txt` record is a file in the
directory — in particular the empty list when the directory is
empty. -/
theorem claim_C8 (fs : Fs) :
    (fs.dirUnreadable = true → getAllPages fs = Except.error "read dir error") ∧
    (fs.dirUnreadable = false →
      ∃ l, getAllPages fs = Except.ok l ∧
        (∀ n, n ∈ l ↔ ∃ c, (n ++ ".txt", Entry.file c) ∈ fs.entries) ∧
        (fs.entries = [] → l = [])) := by
  constructor
  · intro h
    unfold getAllPages
    rw [if_pos h]
  · intro h
    refine ⟨(fs.entries.filter (fun e => !e.2.isDir && hasTxtSuffix e.1)).map
      (fun e => trimTxtSuffix e.1), ?_, ?_, ?_⟩
    · unfold getAllPages
      rw [if_neg (by rw [h]; exact Bool.false_ne_true)]
    · intro n
      constructor
      · intro hmem
        obtain ⟨e, hef, htrim⟩ := List.mem_map.mp hmem
        obtain ⟨hee, hflt⟩ := List.mem_filter.mp hef
        rw [Bool.and_eq_true] at hflt
        obtain ⟨hnd, hsuf⟩ := hflt
        obtain ⟨f, ent⟩ := e
        cases ent with
        | dir => exact absurd hnd (by simp [Entry.isDir])
        | file c =>
            refine ⟨c, ?_⟩
            have hf : n ++ ".txt" = f := by
              rw [← htrim]
              exact trimTxtSuffix_concat hsuf
            rw [hf]
            exact hee
      · rintro ⟨c, hmem⟩
        apply List.mem_map.mpr
        refine ⟨(n ++ ".txt", Entry.file c), ?_, trimTxtSuffix_append n⟩
        apply List.mem_filter.mpr
        refine ⟨hmem, ?_⟩
        rw [Bool.and_eq_true]
        exact ⟨by simp [Entry.isDir], hasTxtSuffix_append n⟩
    · intro hnil
      rw [hnil]
      rfl

theorem claim_C8_witness :
    ∃ l, getAllPages fsSample = Except.ok l ∧
      (∀ n, n ∈ l ↔ ∃ c, (n ++ ".txt", Entry.file c) ∈ fsSample.entries) ∧
      (fsSample.entries = [] → l = []) :=
  (claim_C8 fsSample).2 rfl

end Wiki
